import Mathlib

/-!
Shallow embedding of the per-tab state cache module: an in-memory map from tab
id to a tab-state record, with write-through persistence to an external
key-value store, path-based nested mutation (`get`/`set`), removal, a
navigation handler that fires registered listeners, and a one-shot startup
reconciliation of the persisted mapping against the live tab list.

Modelling conventions:
* JS values appearing in tab-state records are modelled by `JVal`; the JS value
  `undefined` is modelled by `Option.none` wherever the code distinguishes it
  (variadic `set` treats an `undefined` value as the delete sentinel).
* JS plain objects are association lists of own enumerable data properties in
  property-insertion order (`Obj`).  The module only relies on own data
  properties of plain record objects: record keys like `url`, `styleIds` or
  arbitrary metadata keys never collide with inherited prototype members, so
  property reads are modelled as own-property lookup.
* The persistent store (`stateDb`) is external and fire-and-forget; it is
  modelled by the ordered log of the `set`/`remove` calls issued to it
  (`StoreOp`).  Its key namespace holds both the numeric tab ids written by
  this module and unrelated string keys (`JKey`).
* The source is an ES module, hence strict mode: assigning a property on a
  primitive value raises a `TypeError`.  `set` is therefore `Option`-valued,
  `none` meaning the exception escaped the call; in every such case the throw
  happens before any object mutation or store write (traversal only creates
  structure at falsy/missing slots, after which all deeper containers are
  fresh empty objects and can no longer throw), so dropping the state is
  faithful.
* The unary `+` coercion used by the reconciler on store keys (`+key >= 0`)
  is JS `ToNumber`; `jsToNumber` embeds its string grammar (trimming of the
  full `WhiteSpace`/`LineTerminator` set including the Unicode
  `Space_Separator` category, signs, `Infinity`, decimal/fraction/exponent,
  hex/octal/binary prefixes), with `NaN` as `JNum.nan` so that `NaN >= 0` is
  false.  The `>= 0` comparison is on the IEEE-754 double the engine
  produces; `keyNonNeg` accounts for the one place that differs from the
  exact value's sign: negative underflow to `-0` (which compares `>= 0`).
-/

/-- JS values that occur in tab-state records. -/
inductive JVal : Type where
  | vNull : JVal
  | vBool : Bool → JVal
  | vNum : ℚ → JVal
  | vStr : String → JVal
  | vObj : List (String × JVal) → JVal

/-- A JS plain object: own enumerable data properties in insertion order. -/
abbrev Obj := List (String × JVal)

/-- Property read `o[k]` on a plain object (first binding wins; objects built
by this module never carry duplicate keys). -/
def objGet (o : Obj) (k : String) : Option JVal :=
  match o with
  | [] => none
  | (k', v) :: t => if k' = k then some v else objGet t k

/-- Property write `o[k] = v`: replaces the value at an existing key in place
(JS keeps the original insertion position), otherwise appends the new key. -/
def objSet (o : Obj) (k : String) (v : JVal) : Obj :=
  match o with
  | [] => [(k, v)]
  | (k', w) :: t => if k' = k then (k, v) :: t else (k', w) :: objSet t k v

/-- Property deletion `delete o[k]`. -/
def objDel (o : Obj) (k : String) : Obj :=
  match o with
  | [] => []
  | (k', w) :: t => if k' = k then objDel t k else (k', w) :: objDel t k

/-- JS truthiness of a value. -/
def truthy : JVal → Bool
  | .vNull => false
  | .vBool b => b
  | .vNum q => decide (q ≠ 0)
  | .vStr s => decide (s ≠ "")
  | .vObj _ => true

/-- Property read `v[k]` on an arbitrary value, as used by record traversal:
own data property of a plain object; primitive values have no own data
properties at the record keys the module touches, so the read is `undefined`
(reading never throws except on `null`/`undefined`, and every read in the
module is guarded by a truthiness test). -/
def jsGetProp : JVal → String → Option JVal
  | .vObj o, k => objGet o k
  | _, _ => none

/-- The in-memory cache: `Map<number, record>` in insertion order. -/
abbrev Cache := List (Int × Obj)

/-- `cache.get(id)`. -/
def cacheFind (c : Cache) (id : Int) : Option Obj :=
  match c with
  | [] => none
  | (i, o) :: t => if i = id then some o else cacheFind t id

/-- `cache.set(id, o)`: replace in place or append. -/
def cacheSet (c : Cache) (id : Int) (o : Obj) : Cache :=
  match c with
  | [] => [(id, o)]
  | (i, w) :: t => if i = id then (id, o) :: t else (i, w) :: cacheSet t id o

/-- `cache.delete(id)`. -/
def cacheDel (c : Cache) (id : Int) : Cache :=
  match c with
  | [] => []
  | (i, w) :: t => if i = id then cacheDel t id else (i, w) :: cacheDel t id

/-- `cache.has(id)`. -/
def cacheHas (c : Cache) (id : Int) : Bool :=
  (cacheFind c id).isSome

/-- Result of JS `ToNumber`, as far as `+key >= 0` observes it. -/
inductive JNum : Type where
  | nan : JNum
  | posInf : JNum
  | negInf : JNum
  | val : ℚ → JNum

/-- JS `StrWhiteSpace` characters trimmed by `ToNumber`: `WhiteSpace`
(TAB, VT, FF, SP, NBSP, ZWNBSP and the Unicode `Space_Separator` category
U+1680, U+2000..U+200A, U+202F, U+205F, U+3000) and `LineTerminator`
(LF, CR, LS, PS). -/
def isJsWS (c : Char) : Bool :=
  c = ' ' || c = '\t' || c = '\n' || c = '\r' || c.val == 11 || c.val == 12 ||
  c.val == 0xa0 || c.val == 0x2028 || c.val == 0x2029 || c.val == 0xfeff ||
  c.val == 0x1680 || (0x2000 ≤ c.val && c.val ≤ 0x200a) ||
  c.val == 0x202f || c.val == 0x205f || c.val == 0x3000

/-- Trim JS whitespace from both ends. -/
def trimJsWS (l : List Char) : List Char :=
  ((l.dropWhile isJsWS).reverse.dropWhile isJsWS).reverse

/-- Value of a (possibly empty) list of decimal digits. -/
def natOfDigits (ds : List Char) : Nat :=
  ds.foldl (fun n c => 10 * n + (c.toNat - 48)) 0

/-- Hexadecimal digit value. -/
def hexVal (c : Char) : Option Nat :=
  if c.isDigit then some (c.toNat - 48)
  else if 'a' ≤ c && c ≤ 'f' then some (c.toNat - 87)
  else if 'A' ≤ c && c ≤ 'F' then some (c.toNat - 55)
  else none

/-- Value of a nonempty digit string in base `b` (`b ∈ {2, 8, 16}`); `none` on
an empty string or an out-of-range digit. -/
def radixVal (b : Nat) (ds : List Char) : Option Nat :=
  match ds with
  | [] => none
  | _ =>
    ds.foldl (fun acc c =>
      match acc, hexVal c with
      | some n, some d => if d < b then some (b * n + d) else none
      | _, _ => none) (some 0)

/-- Parse the optional exponent suffix `e[+-]?digits` (must consume the whole
remainder); an empty remainder is exponent `0`. -/
def parseExpPart (l : List Char) : Option Int :=
  match l with
  | [] => some 0
  | c :: r =>
    if c = 'e' || c = 'E' then
      match r with
      | '+' :: d => if d ≠ [] && d.all Char.isDigit then some (natOfDigits d) else none
      | '-' :: d => if d ≠ [] && d.all Char.isDigit then some (-(natOfDigits d : Int)) else none
      | d => if d ≠ [] && d.all Char.isDigit then some (natOfDigits d) else none
    else none

/-- The exact rational value `(-1)^neg * m * 10^net` of a parsed decimal
literal with integer mantissa `m` and net power-of-ten exponent `net`
(fractional digits folded into the mantissa).  Built with `mkRat` so the
value computes by integer arithmetic alone. -/
def decToRat (neg : Bool) (m : Nat) (net : Int) : ℚ :=
  let n : Int := if neg then -(m : Int) else (m : Int)
  if 0 ≤ net then mkRat (n * (10 : Int) ^ net.toNat) 1
  else mkRat n ((10 : Nat) ^ (-net).toNat)

/-- JS `StrUnsignedDecimalLiteral` without `Infinity`:
`digits [. digits] [exp]` or `. digits [exp]`; result is the integer mantissa
(all digits) and the net power-of-ten exponent; `none` when the string is not
such a literal (→ `NaN`). -/
def parseUnsignedDec (l : List Char) : Option (Nat × Int) :=
  let ip := l.takeWhile Char.isDigit
  let r1 := l.dropWhile Char.isDigit
  match r1 with
  | '.' :: r2 =>
    let fp := r2.takeWhile Char.isDigit
    let r3 := r2.dropWhile Char.isDigit
    if ip = [] && fp = [] then none
    else
      match parseExpPart r3 with
      | some e => some (natOfDigits (ip ++ fp), e - fp.length)
      | none => none
  | _ =>
    if ip = [] then none
    else
      match parseExpPart r1 with
      | some e => some (natOfDigits ip, e)
      | none => none

/-- Signed decimal literal or `Infinity`. -/
def parseDecOrInf (neg : Bool) (l : List Char) : JNum :=
  if l = "Infinity".data then (if neg then JNum.negInf else JNum.posInf)
  else
    match parseUnsignedDec l with
    | some (m, net) => .val (decToRat neg m net)
    | none => .nan

/-- Nonempty base-`b` digit string to a number, else `NaN`. -/
def jnumOfRadix (b : Nat) (ds : List Char) : JNum :=
  match radixVal b ds with
  | some n => .val (mkRat n 1)
  | none => .nan

/-- JS `ToNumber` on a string. -/
def jsToNumber (s : String) : JNum :=
  match trimJsWS s.data with
  | [] => .val 0
  | '+' :: r => parseDecOrInf false r
  | '-' :: r => parseDecOrInf true r
  | '0' :: 'x' :: r => jnumOfRadix 16 r
  | '0' :: 'X' :: r => jnumOfRadix 16 r
  | '0' :: 'o' :: r => jnumOfRadix 8 r
  | '0' :: 'O' :: r => jnumOfRadix 8 r
  | '0' :: 'b' :: r => jnumOfRadix 2 r
  | '0' :: 'B' :: r => jnumOfRadix 2 r
  | l => parseDecOrInf false l

/-- A key of the shared persistent-store namespace: the numeric tab ids
written by this module, or string keys belonging to other subsystems.
`Map` key identity is SameValueZero, so the two sorts never compare equal. -/
inductive JKey : Type where
  | kNum : Int → JKey
  | kStr : String → JKey
  deriving DecidableEq

/-- The unary `+key` coercion applied by the reconciler to a store key. -/
def jkeyPlus : JKey → JNum
  | .kNum n => .val (mkRat n 1)
  | .kStr s => jsToNumber s

/-- The reconciler's garbage-collection test `+key >= 0` (false on `NaN`).
The engine compares the IEEE-754 double that `ToNumber` produces, not the
exact mathematical value: rounding a finite value to a double preserves its
sign except that a negative value of magnitude at most `2 ^ (-1075)` rounds
to `-0` under round-to-nearest-even (half the smallest subnormal
`2 ^ (-1074)`, the tie going to the even candidate `0`), and `-0 >= 0` is
true in JS (so e.g. `+"-1e-400" >= 0` holds).  Hence the double test
succeeds on a finite value exactly when the exact value `q` satisfies
`0 ≤ q` or `-q ≤ 2 ^ (-1075)`. -/
def keyNonNeg (k : JKey) : Bool :=
  match jkeyPlus k with
  | .nan => false
  | .posInf => true
  | .negInf => false
  | .val q => decide (0 ≤ q) || decide (-q ≤ mkRat 1 (2 ^ 1075))

/-- The persisted mapping delivered by the store's readiness signal: key to
tab-state record, in key-insertion order. -/
abbrev Db := List (JKey × Obj)

/-- `dbData.get(id)` with a numeric tab id. -/
def dbGet (db : Db) (id : Int) : Option Obj :=
  match db with
  | [] => none
  | (k, o) :: t => if k = JKey.kNum id then some o else dbGet t id

/-- In-place mutation of the record stored under numeric key `id` (the
reconciler mutates the object returned by `dbData.get(id)`, which is the
object held by the mapping; the key set is unchanged). -/
def dbSet (db : Db) (id : Int) (o : Obj) : Db :=
  match db with
  | [] => []
  | (k, w) :: t => if k = JKey.kNum id then (k, o) :: t else (k, w) :: dbSet t id o

/-- `cache.has(key)` on a raw store key: the cache's keys are the numeric tab
ids, and `Map.has` uses SameValueZero, so a string key never matches. -/
def cacheHasKey (c : Cache) (k : JKey) : Bool :=
  match k with
  | .kNum n => cacheHas c n
  | .kStr _ => false

/-- A call issued to the persistent store (`stateDb.set` / `stateDb.remove`). -/
inductive StoreOp : Type where
  | put : JKey → Obj → StoreOp
  | del : JKey → StoreOp

/-- Mutable module state: the in-memory cache plus the ordered log of store
calls issued so far. -/
structure SState : Type where
  cache : Cache
  ops : List StoreOp

/-- The records written to the store under numeric key `id`, in issue order. -/
def putsFor (id : Int) (ops : List StoreOp) : List Obj :=
  match ops with
  | [] => []
  | StoreOp.put (JKey.kNum n) o :: t => if n = id then o :: putsFor id t else putsFor id t
  | _ :: t => putsFor id t

/-- Number of store deletions issued for key `k`. -/
def delCount (ops : List StoreOp) (k : JKey) : Nat :=
  match ops with
  | [] => 0
  | StoreOp.del k' :: t => (if k' = k then 1 else 0) + delCount t k
  | _ :: t => delCount t k

namespace TabCache

/-- The traversal loop of `get`: `for (let i = 0; res && i < keyPath.length; i++)
res = res[keyPath[i]]` — stops as soon as `res` is `undefined` or falsy and
returns the value it stopped at. -/
def getLoop (res : Option JVal) (path : List String) : Option JVal :=
  match path with
  | [] => res
  | k :: ks =>
    match res with
    | none => none
    | some v => if truthy v then getLoop (jsGetProp v k) ks else some v

/-- `get(tabId, ...keyPath)`. -/
def get (c : Cache) (tabId : Int) (path : List String) : Option JVal :=
  getLoop ((cacheFind c tabId).map JVal.vObj) path

/-- `getStyleIds(id) = cache.get(id)?.styleIds || false`. -/
def getStyleIds (c : Cache) (id : Int) : JVal :=
  match cacheFind c id with
  | none => .vBool false
  | some o =>
    match objGet o "styleIds" with
    | some v => if truthy v then v else .vBool false
    | none => .vBool false

/-- `onOff(fn, state)`: idempotent add / remove on the listener `Set`
(insertion order preserved, re-adding an element does not move it). -/
def onOff (l : List Nat) (fn : Nat) (state : Bool) : List Nat :=
  if state then (if l.contains fn then l else l ++ [fn]) else l.erase fn

/-- The non-delete traversal of `set` starting at an object:
`obj = obj[key] || (obj[key] = {})` for each intermediate key, then
`obj[lastKey] = value`.  Returns the updated object, or `none` when the JS
code throws a `TypeError` (property assignment on a truthy primitive; no
object mutation precedes such a throw, since structure is only created at
falsy/missing slots after which every deeper container is a fresh `{}`). -/
def setIns (o : Obj) (ks : List String) (lastKey : String) (v : JVal) : Option Obj :=
  match ks with
  | [] => some (objSet o lastKey v)
  | k :: ks' =>
    match objGet o k with
    | some w =>
      if truthy w then
        match w with
        | .vObj o' => (setIns o' ks' lastKey v).map (fun o'' => objSet o k (.vObj o''))
        | _ => none
      else (setIns [] ks' lastKey v).map (fun o'' => objSet o k (.vObj o''))
    | none => (setIns [] ks' lastKey v).map (fun o'' => objSet o k (.vObj o''))

/-- The delete traversal of `set` (`value === undefined`):
`obj = obj[key] || false` for each intermediate key (never creating
structure), then `delete obj[lastKey]` only if traversal ended on a truthy
value; a truthy primitive on the way soaks up the reads as `undefined` and
the operation is a no-op.  Always returns the (possibly unchanged) record. -/
def setDel (o : Obj) (ks : List String) (lastKey : String) : Obj :=
  match ks with
  | [] => objDel o lastKey
  | k :: ks' =>
    match objGet o k with
    | some w =>
      if truthy w then
        match w with
        | .vObj o' => objSet o k (.vObj (setDel o' ks' lastKey))
        | _ => o
      else o
    | none => o

/-- `set(tabId, ...args)` where the JS variadic argument list is
`ks ++ [lastKey, value]` and `value = none` models the `undefined` delete
sentinel.  `none` result = the call raised a `TypeError` (strict mode
property assignment on a primitive) before reaching the store write. -/
def set (σ : SState) (tabId : Int) (ks : List String) (lastKey : String)
    (value : Option JVal) : Option SState :=
  match cacheFind σ.cache tabId, value with
  | none, none => some σ
  | none, some v =>
    match setIns [] ks lastKey v with
    | some o' => some ⟨cacheSet σ.cache tabId o', σ.ops ++ [StoreOp.put (JKey.kNum tabId) o']⟩
    | none => none
  | some o0, some v =>
    match setIns o0 ks lastKey v with
    | some o' => some ⟨cacheSet σ.cache tabId o', σ.ops ++ [StoreOp.put (JKey.kNum tabId) o']⟩
    | none => none
  | some o0, none =>
    some ⟨cacheSet σ.cache tabId (setDel o0 ks lastKey),
          σ.ops ++ [StoreOp.put (JKey.kNum tabId) (setDel o0 ks lastKey)]⟩

/-- `remove(tabId)`: evict the cache record and issue one store deletion. -/
def remove (σ : SState) (tabId : Int) : SState :=
  ⟨cacheDel σ.cache tabId, σ.ops ++ [StoreOp.del (JKey.kNum tabId)]⟩

end TabCache

/-- A registered URL-change listener; `fails` models whether calling it
raises (the handler catches and logs such errors individually). -/
structure Listener : Type where
  id : Nat
  fails : Bool

/-- The payload `{tabId, url, oldUrl}` delivered to listeners; `oldUrl` is
`undefined` (`none`) when the tab was untracked or its record had no url. -/
structure NavEvent : Type where
  tabId : Int
  url : String
  oldUrl : Option JVal

/-- Outcome of one navigation event: the new module state, the listener
invocations in order (listener id with the payload it received), and the ids
whose invocation raised (each caught and logged). -/
structure NavResult : Type where
  state : SState
  calls : List (Nat × NavEvent)
  logged : List Nat

/-- The `onUrlChange` handler: ignore non-top frames; remember the prior
cached url; ensure a record exists; set its `url` and write it through; if
the new url is unsupported stop, otherwise invoke every registered listener
in registration order, catching (and logging) per-listener errors. -/
def navHandler (sup : String → Bool) (σ : SState) (listeners : List Listener)
    (tabId frameId : Int) (url : String) : NavResult :=
  if frameId ≠ 0 then ⟨σ, [], []⟩
  else
    let prev := cacheFind σ.cache tabId
    let oldUrl := prev.bind (fun o => objGet o "url")
    let o' := objSet (prev.getD []) "url" (.vStr url)
    let σ' : SState := ⟨cacheSet σ.cache tabId o', σ.ops ++ [StoreOp.put (JKey.kNum tabId) o']⟩
    if sup url then
      ⟨σ', listeners.map (fun l => (l.id, ⟨tabId, url, oldUrl⟩)),
       (listeners.filter (fun l => l.fails)).map (fun l => l.id)⟩
    else ⟨σ', [], []⟩

/-- Accumulator of the reconciler's live-tab pass: the persisted mapping (its
records are mutated in place through the references `dbData.get` returns),
the cache being rebuilt, and the store calls issued so far. -/
structure ReconAcc : Type where
  db : Db
  cache : Cache
  ops : List StoreOp

/-- `data.url !== url` where `data.url` may be absent or a non-string
(strict inequality is true unless both are equal strings). -/
def urlNeq (v : Option JVal) (url : String) : Bool :=
  match v with
  | some (.vStr s) => decide (s ≠ url)
  | _ => true

/-- The live-tab pass of the startup reconciler: for each live tab with a
supported url, reuse the persisted record (else start from `{}`), refresh its
`url` and persist it when created or stale, and insert it into the cache. -/
def recon1 (sup : String → Bool) (a : ReconAcc) (tabs : List (Int × String)) : ReconAcc :=
  match tabs with
  | [] => a
  | (id, url) :: ts =>
    if sup url then
      match dbGet a.db id with
      | none =>
        recon1 sup ⟨a.db, cacheSet a.cache id [("url", JVal.vStr url)],
                    a.ops ++ [StoreOp.put (JKey.kNum id) [("url", JVal.vStr url)]]⟩ ts
      | some d0 =>
        if urlNeq (objGet d0 "url") url then
          recon1 sup ⟨dbSet a.db id (objSet d0 "url" (.vStr url)),
                      cacheSet a.cache id (objSet d0 "url" (.vStr url)),
                      a.ops ++ [StoreOp.put (JKey.kNum id) (objSet d0 "url" (.vStr url))]⟩ ts
        else recon1 sup ⟨a.db, cacheSet a.cache id d0, a.ops⟩ ts
    else recon1 sup a ts

/-- The garbage-collection pass: for every key of the persisted mapping,
issue a store deletion when `+key >= 0` and the cache does not have the key. -/
def recon2 (cache : Cache) (ops : List StoreOp) (ks : List JKey) : List StoreOp :=
  match ks with
  | [] => ops
  | k :: t =>
    if keyNonNeg k && !cacheHasKey cache k then recon2 cache (ops ++ [StoreOp.del k]) t
    else recon2 cache ops t

/-- The whole startup reconciler, run on the snapshot pair delivered by the
store's readiness signal, starting from the empty module cache; returns the
rebuilt cache and the full ordered log of store calls. -/
def reconcile (sup : String → Bool) (db : Db) (tabs : List (Int × String)) :
    Cache × List StoreOp :=
  let a := recon1 sup ⟨db, [], []⟩ tabs
  (a.cache, recon2 a.cache a.ops (a.db.map Prod.fst))

/-- Strict own-property path lookup through plain objects (used to state that
deletion never creates structure). -/
def pathGet (v : JVal) (p : List String) : Option JVal :=
  match p with
  | [] => some v
  | k :: ks =>
    match v with
    | .vObj o =>
      match objGet o k with
      | some w => pathGet w ks
      | none => none
    | _ => none

/-- The intermediate path has a missing key: traversal through plain objects
meets a key that is absent before the path is exhausted. -/
def pathMissing (o : Obj) (ks : List String) : Bool :=
  match ks with
  | [] => false
  | k :: ks' =>
    match objGet o k with
    | none => true
    | some (JVal.vObj o') => pathMissing o' ks'
    | some _ => false

/-! ### Basic lemmas about the object / cache primitives -/

theorem objGet_objSet_self (o : Obj) (k : String) (v : JVal) :
    objGet (objSet o k v) k = some v := by
  induction o with
  | nil => simp [objSet, objGet]
  | cons p t ih =>
    obtain ⟨k', w⟩ := p
    by_cases h : k' = k <;> simp [objSet, objGet, h, ih]

theorem objGet_objSet_ne (o : Obj) (k k' : String) (v : JVal) (h : k ≠ k') :
    objGet (objSet o k v) k' = objGet o k' := by
  induction o with
  | nil => simp [objSet, objGet, h]
  | cons p t ih =>
    obtain ⟨k'', w⟩ := p
    by_cases h2 : k'' = k
    · subst h2; simp [objSet, objGet, h]
    · simp [objSet, objGet, h2, ih]

theorem objSet_self (o : Obj) (k : String) (v : JVal) (h : objGet o k = some v) :
    objSet o k v = o := by
  induction o with
  | nil => simp [objGet] at h
  | cons p t ih =>
    obtain ⟨k', w⟩ := p
    by_cases h2 : k' = k
    · subst h2
      simp [objGet] at h
      simp [objSet, h]
    · simp [objGet, h2] at h
      simp [objSet, h2, ih h]

theorem objGet_objDel (o : Obj) (k k' : String) :
    objGet (objDel o k) k' = if k' = k then none else objGet o k' := by
  induction o with
  | nil => simp [objDel, objGet]
  | cons p t ih =>
    obtain ⟨k'', w⟩ := p
    by_cases h2 : k'' = k
    · subst h2
      rw [show objDel ((k'', w) :: t) k'' = objDel t k'' from by simp [objDel], ih]
      by_cases h3 : k' = k''
      · simp [h3]
      · have h4 : k'' ≠ k' := fun h => h3 h.symm
        simp [objGet, h3, h4]
    · rw [show objDel ((k'', w) :: t) k = (k'', w) :: objDel t k from by simp [objDel, h2]]
      by_cases h3 : k'' = k'
      · subst h3
        have h4 : ¬ k'' = k := h2
        simp [objGet, h4]
      · simp [objGet, h3, ih]

theorem cacheFind_cacheSet_self (c : Cache) (id : Int) (o : Obj) :
    cacheFind (cacheSet c id o) id = some o := by
  induction c with
  | nil => simp [cacheSet, cacheFind]
  | cons p t ih =>
    obtain ⟨i, w⟩ := p
    by_cases h : i = id <;> simp [cacheSet, cacheFind, h, ih]

theorem cacheFind_cacheSet_ne (c : Cache) (i j : Int) (o : Obj) (h : i ≠ j) :
    cacheFind (cacheSet c i o) j = cacheFind c j := by
  induction c with
  | nil => simp [cacheSet, cacheFind, h]
  | cons p t ih =>
    obtain ⟨i', w⟩ := p
    by_cases h2 : i' = i
    · subst h2; simp [cacheSet, cacheFind, h]
    · simp [cacheSet, cacheFind, h2, ih]

theorem cacheFind_cacheDel_self (c : Cache) (id : Int) :
    cacheFind (cacheDel c id) id = none := by
  induction c with
  | nil => simp [cacheDel, cacheFind]
  | cons p t ih =>
    obtain ⟨i, w⟩ := p
    by_cases h : i = id <;> simp [cacheDel, cacheFind, h, ih]

theorem dbGet_dbSet_ne (db : Db) (i j : Int) (o : Obj) (h : i ≠ j) :
    dbGet (dbSet db i o) j = dbGet db j := by
  induction db with
  | nil => simp [dbSet, dbGet]
  | cons p t ih =>
    obtain ⟨k, w⟩ := p
    by_cases h2 : k = JKey.kNum i
    · subst h2
      have : JKey.kNum i ≠ JKey.kNum j := by simpa using h
      simp [dbSet, dbGet, this]
    · simp [dbSet, dbGet, h2, ih]

theorem dbSet_keys (db : Db) (i : Int) (o : Obj) :
    (dbSet db i o).map Prod.fst = db.map Prod.fst := by
  induction db with
  | nil => simp [dbSet]
  | cons p t ih =>
    obtain ⟨k, w⟩ := p
    by_cases h2 : k = JKey.kNum i
    · subst h2; simp [dbSet]
    · simp [dbSet, h2, ih]

/-! ### Lemmas about the store-call log -/

theorem putsFor_append (id : Int) (xs ys : List StoreOp) :
    putsFor id (xs ++ ys) = putsFor id xs ++ putsFor id ys := by
  induction xs with
  | nil => simp [putsFor]
  | cons op t ih =>
    cases op with
    | put k o =>
      cases k with
      | kNum n =>
        by_cases h : n = id <;> simp [putsFor, h, ih]
      | kStr s => simpa [putsFor] using ih
    | del k => simpa [putsFor] using ih

theorem putsFor_put_self (id : Int) (o : Obj) :
    putsFor id [StoreOp.put (JKey.kNum id) o] = [o] := by
  simp [putsFor]

theorem putsFor_put_ne (id n : Int) (o : Obj) (h : n ≠ id) :
    putsFor id [StoreOp.put (JKey.kNum n) o] = [] := by
  simp [putsFor, h]

theorem delCount_append (k : JKey) (xs ys : List StoreOp) :
    delCount (xs ++ ys) k = delCount xs k + delCount ys k := by
  induction xs with
  | nil => simp [delCount]
  | cons op t ih =>
    cases op with
    | put k' o => simpa [delCount] using ih
    | del k' => simp [delCount, ih]; omega

theorem putsFor_map_del (id : Int) (ks : List JKey) :
    putsFor id (ks.map StoreOp.del) = [] := by
  induction ks with
  | nil => simp [putsFor]
  | cons k t ih => simp [putsFor, ih]

/-! ### Lemmas about the get traversal -/

theorem getLoop_none (path : List String) : TabCache.getLoop none path = none := by
  cases path <;> rfl

theorem getLoop_falsy (v : JVal) (h : truthy v = false) (path : List String) :
    TabCache.getLoop (some v) path = some v := by
  cases path <;> simp [TabCache.getLoop, h]

theorem getLoop_append (r : Option JVal) (p q : List String) :
    TabCache.getLoop r (p ++ q) = TabCache.getLoop (TabCache.getLoop r p) q := by
  induction p generalizing r with
  | nil => rfl
  | cons k ks ih =>
    cases r with
    | none => simp [TabCache.getLoop, getLoop_none]
    | some v =>
      by_cases h : truthy v
      · simp [TabCache.getLoop, h, ih]
      · have h2 : truthy v = false := by simpa using h
        simp [TabCache.getLoop, h2, getLoop_falsy _ h2]

/-! ### Claim C8 — `remove` -/

/-- C8: for every tab id `T`, `remove(T)` deletes the in-memory cache record
for `T` (a subsequent `get(T, ...)` returns `undefined` for every key path)
and issues exactly one persistent-store deletion for key `T`. -/
theorem remove_evicts_and_deletes_once (σ : SState) (T : Int) :
    (∀ path, TabCache.get (TabCache.remove σ T).cache T path = none)
    ∧ (TabCache.remove σ T).ops = σ.ops ++ [StoreOp.del (JKey.kNum T)]
    ∧ delCount (TabCache.remove σ T).ops (JKey.kNum T)
        = delCount σ.ops (JKey.kNum T) + 1 := by
  refine ⟨fun path => ?_, rfl, ?_⟩
  · simp [TabCache.get, TabCache.remove, cacheFind_cacheDel_self, getLoop_none]
  · simp [TabCache.remove, delCount_append, delCount]

/-! ### Claim C9 — non-top frames are ignored -/

/-- C9: a navigation event whose frame id is not `0` changes nothing: the
cache is unchanged, no store call is issued, and no listener is invoked. -/
theorem navHandler_ignores_subframes (sup : String → Bool) (σ : SState)
    (L : List Listener) (tabId frameId : Int) (url : String) (h : frameId ≠ 0) :
    navHandler sup σ L tabId frameId url = ⟨σ, [], []⟩ := by
  simp [navHandler, h]

/-- C9 witness: a concrete subframe event (frame id 4) is a complete no-op. -/
theorem navHandler_ignores_subframes_witness :
    navHandler (fun _ => true) ⟨[(1, [("url", JVal.vStr "A")])], []⟩ [⟨1, false⟩] 1 4 "B"
      = ⟨⟨[(1, [("url", JVal.vStr "A")])], []⟩, [], []⟩ :=
  navHandler_ignores_subframes (fun _ => true) ⟨[(1, [("url", JVal.vStr "A")])], []⟩
    [⟨1, false⟩] 1 4 "B" (by decide)

/-! ### Claim C5 — `get` / `getStyleIds` -/

/-- C5 counterexamples.  First: on the record `{a: 0}` the traversal
`get(1,'a','b','c')` returns `0`, not `undefined`, although the intermediate
key `b` is missing — the loop `for (...; res && i < keyPath.length; ...)`
stops at the falsy value `0` and returns it.  Second: a tab with a record
that merely lacks `styleIds` (here `{url:'x'}`, a tracked tab) makes
`getStyleIds` return `false`, so `false` is not returned exactly when the tab
has no cache record. -/
theorem get_falsy_and_styleIds_counterexample :
    TabCache.get [(1, [("a", JVal.vNum 0)])] 1 ["a", "b", "c"] = some (JVal.vNum 0)
    ∧ cacheFind [(1, [("url", JVal.vStr "x")])] 1 = some [("url", JVal.vStr "x")]
    ∧ TabCache.getStyleIds [(1, [("url", JVal.vStr "x")])] 1 = JVal.vBool false :=
  ⟨rfl, rfl, rfl⟩

/-- C5 amended: `get` on an untracked tab returns `undefined` (and
`getStyleIds` returns `false`); traversal propagates `undefined`, and stops
at the first falsy intermediate value and returns that value itself; `get`
is total (never throws).  `getStyleIds` returns the record's truthy
`styleIds` value, and returns the boolean `false` exactly when the tab has
no cache record or the record's `styleIds` field is absent or falsy. -/
theorem get_getStyleIds_amended (c : Cache) (T : Int) (path : List String) :
    (cacheFind c T = none →
      TabCache.get c T path = none ∧ TabCache.getStyleIds c T = JVal.vBool false)
    ∧ (TabCache.get c T path = none →
        ∀ ks, TabCache.get c T (path ++ ks) = none)
    ∧ (∀ v, TabCache.get c T path = some v → truthy v = false →
        ∀ ks, TabCache.get c T (path ++ ks) = some v)
    ∧ (∀ o, cacheFind c T = some o →
        ((∃ v, objGet o "styleIds" = some v ∧ truthy v = true
            ∧ TabCache.getStyleIds c T = v)
         ∨ ((∀ v, objGet o "styleIds" = some v → truthy v = false)
            ∧ TabCache.getStyleIds c T = JVal.vBool false))) := by
  refine ⟨fun h => ⟨?_, ?_⟩, fun h ks => ?_, fun v h hf ks => ?_, fun o h => ?_⟩
  · simp [TabCache.get, h, getLoop_none]
  · simp [TabCache.getStyleIds, h]
  · rw [TabCache.get, getLoop_append, ← TabCache.get, h, getLoop_none]
  · rw [TabCache.get, getLoop_append, ← TabCache.get, h, getLoop_falsy v hf]
  · cases hg : objGet o "styleIds" with
    | none =>
      refine Or.inr ⟨fun v hv => ?_, ?_⟩
      · exact Option.noConfusion hv
      · simp [TabCache.getStyleIds, h, hg]
    | some v =>
      by_cases ht : truthy v
      · refine Or.inl ⟨v, rfl, ht, ?_⟩
        simp [TabCache.getStyleIds, h, hg, ht]
      · have ht2 : truthy v = false := by simpa using ht
        refine Or.inr ⟨fun w hw => ?_, ?_⟩
        · cases hw; exact ht2
        · simp [TabCache.getStyleIds, h, hg, ht2]

/-- C5 witness: the amended theorem applied to the empty cache at tab 0. -/
theorem get_getStyleIds_amended_witness :
    TabCache.get [] 0 ["a", "b"] = none
    ∧ TabCache.getStyleIds [] 0 = JVal.vBool false :=
  (get_getStyleIds_amended [] 0 ["a", "b"]).1 rfl

/-! ### Claim C6 — navigation to an unsupported URL -/

/-- C6: a top-frame navigation whose url fails the support predicate creates
the cache record if absent, sets its `url` field to the new value, writes the
full record through to the store, and invokes zero listeners. -/
theorem navHandler_unsupported (sup : String → Bool) (σ : SState)
    (L : List Listener) (T : Int) (url : String) (h : sup url = false) :
    navHandler sup σ L T 0 url =
      ⟨⟨cacheSet σ.cache T (objSet ((cacheFind σ.cache T).getD []) "url" (.vStr url)),
        σ.ops ++ [StoreOp.put (JKey.kNum T)
          (objSet ((cacheFind σ.cache T).getD []) "url" (.vStr url))]⟩, [], []⟩
    ∧ cacheFind (navHandler sup σ L T 0 url).state.cache T =
        some (objSet ((cacheFind σ.cache T).getD []) "url" (.vStr url))
    ∧ objGet ((objSet ((cacheFind σ.cache T).getD []) "url" (.vStr url))) "url"
        = some (.vStr url) := by
  have he : navHandler sup σ L T 0 url =
      ⟨⟨cacheSet σ.cache T (objSet ((cacheFind σ.cache T).getD []) "url" (.vStr url)),
        σ.ops ++ [StoreOp.put (JKey.kNum T)
          (objSet ((cacheFind σ.cache T).getD []) "url" (.vStr url))]⟩, [], []⟩ := by
    simp [navHandler, h]
  exact ⟨he, by rw [he]; exact cacheFind_cacheSet_self _ _ _, objGet_objSet_self _ _ _⟩

/-- C6 witness: an untracked tab navigated to an unsupported url gets a
persisted `{url}` record and no listener call. -/
theorem navHandler_unsupported_witness :
    navHandler (fun _ => false) ⟨[], []⟩ [⟨1, false⟩] 9 0 "about:blank" =
      ⟨⟨[(9, [("url", JVal.vStr "about:blank")])],
        [StoreOp.put (JKey.kNum 9) [("url", JVal.vStr "about:blank")]]⟩, [], []⟩ :=
  (navHandler_unsupported (fun _ => false) ⟨[], []⟩ [⟨1, false⟩] 9 "about:blank" rfl).1

/-! ### Claim C4 — notification of listeners on a supported navigation -/

/-- C4: on a top-frame navigation to a supported url, every registered
listener is invoked exactly once, in registration order, with
`{tabId, url, oldUrl}` where `oldUrl` is the cached url before the event
(absent on an untracked tab); the url mutation is applied to the cache and
issued to the store before notification and does not depend on which
listeners raise; a raising listener is logged and does not prevent later
listeners from being invoked (the call list is the full listener list
whatever the failure flags are). -/
theorem navHandler_notifies_all (sup : String → Bool) (σ : SState)
    (L : List Listener) (T : Int) (url : String)
    (hs : sup url = true) (hnd : (L.map Listener.id).Nodup) :
    (navHandler sup σ L T 0 url).calls
      = L.map (fun l => (l.id,
          ⟨T, url, (cacheFind σ.cache T).bind (fun o => objGet o "url")⟩))
    ∧ (∀ f, f ∈ L.map Listener.id →
        ((navHandler sup σ L T 0 url).calls.map Prod.fst).count f = 1)
    ∧ (navHandler sup σ L T 0 url).state =
        ⟨cacheSet σ.cache T (objSet ((cacheFind σ.cache T).getD []) "url" (.vStr url)),
         σ.ops ++ [StoreOp.put (JKey.kNum T)
           (objSet ((cacheFind σ.cache T).getD []) "url" (.vStr url))]⟩
    ∧ (navHandler sup σ L T 0 url).logged = (L.filter Listener.fails).map Listener.id
    ∧ (∀ L', L'.map Listener.id = L.map Listener.id →
        (navHandler sup σ L' T 0 url).calls = (navHandler sup σ L T 0 url).calls
        ∧ (navHandler sup σ L' T 0 url).state = (navHandler sup σ L T 0 url).state) := by
  have hcalls : ∀ M : List Listener, (navHandler sup σ M T 0 url).calls
      = M.map (fun l => (l.id,
          (⟨T, url, (cacheFind σ.cache T).bind (fun o => objGet o "url")⟩ : NavEvent))) := by
    intro M; simp [navHandler, hs]
  have hstate : ∀ M : List Listener, (navHandler sup σ M T 0 url).state =
      ⟨cacheSet σ.cache T (objSet ((cacheFind σ.cache T).getD []) "url" (.vStr url)),
       σ.ops ++ [StoreOp.put (JKey.kNum T)
         (objSet ((cacheFind σ.cache T).getD []) "url" (.vStr url))]⟩ := by
    intro M; simp [navHandler, hs]
  refine ⟨hcalls L, fun f hf => ?_, hstate L, by simp [navHandler, hs], fun L' hL' => ?_⟩
  · have hm : ((navHandler sup σ L T 0 url).calls.map Prod.fst) = L.map Listener.id := by
      rw [hcalls L, List.map_map]; rfl
    rw [hm]
    exact List.count_eq_one_of_mem hnd hf
  · refine ⟨?_, (hstate L').trans (hstate L).symm⟩
    rw [hcalls L', hcalls L]
    have key : ∀ M : List Listener,
        M.map (fun l => ((l.id : Nat),
          (⟨T, url, (cacheFind σ.cache T).bind (fun o => objGet o "url")⟩ : NavEvent)))
        = (M.map Listener.id).map (fun i => (i,
          (⟨T, url, (cacheFind σ.cache T).bind (fun o => objGet o "url")⟩ : NavEvent))) := by
      intro M
      rw [List.map_map]
      rfl
    rw [key L', key L, hL']

/-- C4 witness: two listeners, the first of which raises, on a tracked tab
navigating from `A` to supported `B`: both receive `{tabId:3, url:'B',
oldUrl:'A'}` exactly once in order, the failure is logged, and the mutation
is persisted. -/
theorem navHandler_notifies_all_witness :
    (navHandler (fun _ => true) ⟨[(3, [("url", JVal.vStr "A")])], []⟩
        [⟨1, true⟩, ⟨2, false⟩] 3 0 "B").calls
      = [(1, ⟨3, "B", some (JVal.vStr "A")⟩), (2, ⟨3, "B", some (JVal.vStr "A")⟩)]
    ∧ (((navHandler (fun _ => true) ⟨[(3, [("url", JVal.vStr "A")])], []⟩
        [⟨1, true⟩, ⟨2, false⟩] 3 0 "B").calls.map Prod.fst).count 2 = 1) := by
  have h := navHandler_notifies_all (fun _ => true) ⟨[(3, [("url", JVal.vStr "A")])], []⟩
    [⟨1, true⟩, ⟨2, false⟩] 3 "B" rfl (by decide)
  exact ⟨h.1, h.2.1 2 (by decide)⟩

/-! ### Lemmas about the set traversals -/

theorem setDel_pathMissing (ks : List String) :
    ∀ (o : Obj) (k : String), pathMissing o ks = true → TabCache.setDel o ks k = o := by
  induction ks with
  | nil => intro o k h; simp [pathMissing] at h
  | cons k0 ks' ih =>
    intro o k h
    cases hg : objGet o k0 with
    | none => simp [TabCache.setDel, hg]
    | some w =>
      cases w with
      | vObj o1 =>
        have h2 : pathMissing o1 ks' = true := by simpa [pathMissing, hg] using h
        simp only [TabCache.setDel, hg, truthy, if_true]
        rw [ih o1 k h2]
        exact objSet_self o k0 _ hg
      | vNull => simp [pathMissing, hg] at h
      | vBool b => simp [pathMissing, hg] at h
      | vNum q => simp [pathMissing, hg] at h
      | vStr s => simp [pathMissing, hg] at h

theorem setIns_nil_isSome (ks : List String) (k : String) (v : JVal) :
    ∃ o', TabCache.setIns [] ks k v = some o' := by
  induction ks with
  | nil => exact ⟨objSet [] k v, rfl⟩
  | cons k0 ks' ih =>
    obtain ⟨o', h⟩ := ih
    exact ⟨objSet [] k0 (.vObj o'), by simp [TabCache.setIns, objGet, h]⟩

theorem setDel_domain (ks : List String) :
    ∀ (o : Obj) (k : String) (p : List String) (v : JVal),
      pathGet (JVal.vObj (TabCache.setDel o ks k)) p = some v →
      ∃ w, pathGet (JVal.vObj o) p = some w := by
  induction ks with
  | nil =>
    intro o k p v h
    cases p with
    | nil => exact ⟨JVal.vObj o, rfl⟩
    | cons k' ps =>
      simp only [TabCache.setDel] at h
      by_cases hkk : k' = k
      · rw [show pathGet (JVal.vObj (objDel o k)) (k' :: ps)
            = match objGet (objDel o k) k' with
              | some w => pathGet w ps
              | none => none from rfl, objGet_objDel, if_pos hkk] at h
        exact Option.noConfusion h
      · rw [show pathGet (JVal.vObj (objDel o k)) (k' :: ps)
            = match objGet (objDel o k) k' with
              | some w => pathGet w ps
              | none => none from rfl, objGet_objDel, if_neg hkk] at h
        cases hg : objGet o k' with
        | none => rw [hg] at h; exact Option.noConfusion h
        | some w =>
          rw [hg] at h
          refine ⟨v, ?_⟩
          simp only [pathGet, hg]
          exact h
  | cons k0 ks' ih =>
    intro o k p v h
    cases hg : objGet o k0 with
    | none =>
      simp only [TabCache.setDel, hg] at h
      exact ⟨v, h⟩
    | some w =>
      cases w with
      | vObj o1 =>
        simp only [TabCache.setDel, hg, truthy, if_true] at h
        cases p with
        | nil => exact ⟨JVal.vObj o, rfl⟩
        | cons k' ps =>
          by_cases hkk : k' = k0
          · subst hkk
            rw [show pathGet (JVal.vObj (objSet o k' (JVal.vObj (TabCache.setDel o1 ks' k))))
                  (k' :: ps)
                = match objGet (objSet o k' (JVal.vObj (TabCache.setDel o1 ks' k))) k' with
                  | some w => pathGet w ps
                  | none => none from rfl, objGet_objSet_self] at h
            obtain ⟨w2, hw2⟩ := ih o1 k ps v h
            exact ⟨w2, by simp [pathGet, hg, hw2]⟩
          · have hkk2 : k0 ≠ k' := fun hh => hkk hh.symm
            rw [show pathGet (JVal.vObj (objSet o k0 (JVal.vObj (TabCache.setDel o1 ks' k))))
                  (k' :: ps)
                = match objGet (objSet o k0 (JVal.vObj (TabCache.setDel o1 ks' k))) k' with
                  | some w => pathGet w ps
                  | none => none from rfl, objGet_objSet_ne _ _ _ _ hkk2] at h
            cases hg2 : objGet o k' with
            | none => rw [hg2] at h; exact Option.noConfusion h
            | some w' =>
              rw [hg2] at h
              refine ⟨v, ?_⟩
              simp only [pathGet, hg2]
              exact h
      | vNull =>
        simp only [TabCache.setDel, hg, truthy, if_false, Bool.false_eq_true] at h
        exact ⟨v, h⟩
      | vBool b =>
        simp only [TabCache.setDel, hg, ite_self] at h
        exact ⟨v, h⟩
      | vNum q =>
        simp only [TabCache.setDel, hg, ite_self] at h
        exact ⟨v, h⟩
      | vStr s =>
        simp only [TabCache.setDel, hg, ite_self] at h
        exact ⟨v, h⟩

theorem setDel_target (ks : List String) :
    ∀ (o oo : Obj) (k : String), pathGet (JVal.vObj o) ks = some (JVal.vObj oo) →
      pathGet (JVal.vObj (TabCache.setDel o ks k)) (ks ++ [k]) = none := by
  induction ks with
  | nil =>
    intro o oo k _
    simp [TabCache.setDel, pathGet, objGet_objDel]
  | cons k0 ks' ih =>
    intro o oo k h
    cases hg : objGet o k0 with
    | none => simp [pathGet, hg] at h
    | some w =>
      have h2 : pathGet w ks' = some (JVal.vObj oo) := by simpa [pathGet, hg] using h
      cases w with
      | vObj o1 =>
        have h3 := ih o1 oo k h2
        simp only [TabCache.setDel, hg, truthy, if_true, List.cons_append]
        simpa [pathGet, objGet_objSet_self] using h3
      | vNull => cases ks' <;> simp [pathGet] at h2
      | vBool b => cases ks' <;> simp [pathGet] at h2
      | vNum q => cases ks' <;> simp [pathGet] at h2
      | vStr s => cases ks' <;> simp [pathGet] at h2

/-! ### Claim C3 — set / get / persist round trip -/

/-- C3: on any tab `T` with no cache record, `set(T,'a','b',1)` succeeds,
after it `get(T,'a','b')` returns `1` and the record written through to the
store under `T` is `{a:{b:1}}`; the subsequent `set(T,'a','b',undefined)`
writes the record `{a:{}}` through to the store. -/
theorem set_get_persist_roundtrip (σ : SState) (T : Int)
    (h : cacheFind σ.cache T = none) :
    ∃ σ₁ σ₂,
      TabCache.set σ T ["a"] "b" (some (JVal.vNum 1)) = some σ₁
      ∧ TabCache.get σ₁.cache T ["a", "b"] = some (JVal.vNum 1)
      ∧ σ₁.ops = σ.ops ++ [StoreOp.put (JKey.kNum T) [("a", JVal.vObj [("b", JVal.vNum 1)])]]
      ∧ TabCache.set σ₁ T ["a"] "b" none = some σ₂
      ∧ σ₂.ops = σ₁.ops ++ [StoreOp.put (JKey.kNum T) [("a", JVal.vObj [])]] := by
  refine ⟨⟨cacheSet σ.cache T [("a", JVal.vObj [("b", JVal.vNum 1)])],
           σ.ops ++ [StoreOp.put (JKey.kNum T) [("a", JVal.vObj [("b", JVal.vNum 1)])]]⟩,
          ⟨cacheSet (cacheSet σ.cache T [("a", JVal.vObj [("b", JVal.vNum 1)])]) T
             [("a", JVal.vObj [])],
           (σ.ops ++ [StoreOp.put (JKey.kNum T) [("a", JVal.vObj [("b", JVal.vNum 1)])]])
             ++ [StoreOp.put (JKey.kNum T) [("a", JVal.vObj [])]]⟩,
          ?_, ?_, rfl, ?_, rfl⟩
  · simp [TabCache.set, h, TabCache.setIns, objGet, objSet]
  · simp [TabCache.get, cacheFind_cacheSet_self, TabCache.getLoop, jsGetProp, objGet, truthy]
  · simp [TabCache.set, cacheFind_cacheSet_self, TabCache.setDel, objGet, objDel, truthy, objSet]

/-- C3 witness: the round trip at tab 0 starting from the empty module state. -/
theorem set_get_persist_roundtrip_witness :
    ∃ σ₁ σ₂,
      TabCache.set ⟨[], []⟩ 0 ["a"] "b" (some (JVal.vNum 1)) = some σ₁
      ∧ TabCache.get σ₁.cache 0 ["a", "b"] = some (JVal.vNum 1)
      ∧ σ₁.ops = [] ++ [StoreOp.put (JKey.kNum 0) [("a", JVal.vObj [("b", JVal.vNum 1)])]]
      ∧ TabCache.set σ₁ 0 ["a"] "b" none = some σ₂
      ∧ σ₂.ops = σ₁.ops ++ [StoreOp.put (JKey.kNum 0) [("a", JVal.vObj [])]] :=
  set_get_persist_roundtrip ⟨[], []⟩ 0 rfl

/-! ### Claim C7 — write-through discipline of `set` -/

/-- C7 counterexample: a tab record exists (`{a: 5}`) and the call is not a
delete, yet no store write is issued — `set(7,'a','b',1)` reaches
`obj['b'] = 1` with `obj` the primitive `5` and, the module being strict-mode
code, raises a `TypeError` (modelled by the `none` result) before the
`stateDb.set` line, contradicting "in every set call other than a delete on a
nonexistent tab record, the full resulting record is written through". -/
theorem set_typeerror_counterexample :
    cacheFind [(7, [("a", JVal.vNum 5)])] 7 = some [("a", JVal.vNum 5)]
    ∧ TabCache.set ⟨[(7, [("a", JVal.vNum 5)])], []⟩ 7 ["a"] "b" (some (JVal.vNum 1))
        = none :=
  ⟨rfl, rfl⟩

/-- C7 amended: a delete on a nonexistent tab record is a true no-op (no
cache record, no store write); a delete whose intermediate path has a missing
key leaves the record unchanged — creating no structure and deleting no key —
but still writes the unchanged record through; every `set` call on an
existing record that returns (does not raise) issues exactly the write-through
of the resulting record; and a non-delete `set` on a missing record always
returns and writes the fresh record through.  The only exception to the
original write-through clause is a non-delete traversal that meets a truthy
primitive, which raises a strict-mode `TypeError` before the store write. -/
theorem set_write_through_amended (σ : SState) (T : Int) (ks : List String) (k : String) :
    (cacheFind σ.cache T = none → TabCache.set σ T ks k none = some σ)
    ∧ (∀ o, cacheFind σ.cache T = some o → pathMissing o ks = true →
        TabCache.set σ T ks k none =
          some ⟨cacheSet σ.cache T o, σ.ops ++ [StoreOp.put (JKey.kNum T) o]⟩)
    ∧ (∀ o v σ', cacheFind σ.cache T = some o → TabCache.set σ T ks k v = some σ' →
        ∃ o', σ' = ⟨cacheSet σ.cache T o', σ.ops ++ [StoreOp.put (JKey.kNum T) o']⟩)
    ∧ (∀ v, cacheFind σ.cache T = none →
        ∃ o', TabCache.set σ T ks k (some v) =
          some ⟨cacheSet σ.cache T o', σ.ops ++ [StoreOp.put (JKey.kNum T) o']⟩) := by
  refine ⟨fun h => by simp [TabCache.set, h], fun o hf hpm => ?_,
          fun o v σ' hf hs => ?_, fun v hf => ?_⟩
  · simp [TabCache.set, hf, setDel_pathMissing ks o k hpm]
  · cases v with
    | none =>
      simp only [TabCache.set, hf] at hs
      exact ⟨TabCache.setDel o ks k, by cases hs; rfl⟩
    | some w =>
      simp only [TabCache.set, hf] at hs
      cases he : TabCache.setIns o ks k w with
      | none => rw [he] at hs; exact Option.noConfusion hs
      | some o' =>
        rw [he] at hs
        exact ⟨o', by cases hs; rfl⟩
  · obtain ⟨o', he⟩ := setIns_nil_isSome ks k v
    exact ⟨o', by simp [TabCache.set, hf, he]⟩

/-- C7 witness: a delete against the missing intermediate key `x` on the
record `{a:{}}` leaves the record unchanged and still writes it through. -/
theorem set_write_through_amended_witness :
    TabCache.set ⟨[(2, [("a", JVal.vObj [])])], []⟩ 2 ["x"] "y" none =
      some ⟨[(2, [("a", JVal.vObj [])])],
            [StoreOp.put (JKey.kNum 2) [("a", JVal.vObj [])]]⟩ :=
  (set_write_through_amended ⟨[(2, [("a", JVal.vObj [])])], []⟩ 2 ["x"] "y").2.1
    [("a", JVal.vObj [])] rfl rfl

/-! ### Claim C10 — the delete sentinel is `undefined` -/

/-- C10: `set` with value `undefined` (the `none` sentinel — the only value
the variadic `set` cannot store, since `value === undefined` switches it to
deletion) is a deletion: on a missing tab record it is a complete no-op
(creating neither a record nor a store write); on an existing record it
replaces the record by the delete-traversal result and writes it through,
that result never contains a path that the original record lacked (no
intermediate container is ever created), and when the intermediate path does
reach a nested object the final key is absent from it afterwards. -/
theorem set_undefined_deletes (σ : SState) (T : Int) (ks : List String) (k : String) :
    (cacheFind σ.cache T = none → TabCache.set σ T ks k none = some σ)
    ∧ (∀ o, cacheFind σ.cache T = some o →
        TabCache.set σ T ks k none =
          some ⟨cacheSet σ.cache T (TabCache.setDel o ks k),
                σ.ops ++ [StoreOp.put (JKey.kNum T) (TabCache.setDel o ks k)]⟩
        ∧ (∀ p v, pathGet (JVal.vObj (TabCache.setDel o ks k)) p = some v →
            ∃ w, pathGet (JVal.vObj o) p = some w)
        ∧ (∀ oo, pathGet (JVal.vObj o) ks = some (JVal.vObj oo) →
            pathGet (JVal.vObj (TabCache.setDel o ks k)) (ks ++ [k]) = none)) := by
  refine ⟨fun h => by simp [TabCache.set, h], fun o hf => ⟨?_, ?_, ?_⟩⟩
  · simp [TabCache.set, hf]
  · exact fun p v h => setDel_domain ks o k p v h
  · exact fun oo h => setDel_target ks o oo k h

/-- C10 witness: deleting `['a','b']` on tab 1 with record `{a:{b:1}}`
removes `b`, and on untracked tab 9 is a complete no-op. -/
theorem set_undefined_deletes_witness :
    TabCache.set ⟨[(1, [("a", JVal.vObj [("b", JVal.vNum 1)])])], []⟩ 1 ["a"] "b" none =
      some ⟨[(1, [("a", JVal.vObj [])])],
            [StoreOp.put (JKey.kNum 1) [("a", JVal.vObj [])]]⟩
    ∧ TabCache.set ⟨[], []⟩ 9 ["p"] "q" none = some ⟨[], []⟩ :=
  ⟨((set_undefined_deletes ⟨[(1, [("a", JVal.vObj [("b", JVal.vNum 1)])])], []⟩
      1 ["a"] "b").2 [("a", JVal.vObj [("b", JVal.vNum 1)])] rfl).1,
   (set_undefined_deletes ⟨[], []⟩ 9 ["p"] "q").1 rfl⟩

/-! ### Lemmas about the reconciler's live-tab pass -/

theorem recon1_cons (sup : String → Bool) (a : ReconAcc) (i : Int) (u : String)
    (ts : List (Int × String)) :
    recon1 sup a ((i, u) :: ts) =
      if sup u then
        match dbGet a.db i with
        | none =>
          recon1 sup ⟨a.db, cacheSet a.cache i [("url", JVal.vStr u)],
                      a.ops ++ [StoreOp.put (JKey.kNum i) [("url", JVal.vStr u)]]⟩ ts
        | some d0 =>
          if urlNeq (objGet d0 "url") u then
            recon1 sup ⟨dbSet a.db i (objSet d0 "url" (.vStr u)),
                        cacheSet a.cache i (objSet d0 "url" (.vStr u)),
                        a.ops ++ [StoreOp.put (JKey.kNum i) (objSet d0 "url" (.vStr u))]⟩ ts
          else recon1 sup ⟨a.db, cacheSet a.cache i d0, a.ops⟩ ts
      else recon1 sup a ts := rfl

theorem recon1_untouched (sup : String → Bool) (ts : List (Int × String)) (id : Int) :
    ∀ a : ReconAcc, id ∉ ts.map Prod.fst →
      cacheFind (recon1 sup a ts).cache id = cacheFind a.cache id
      ∧ dbGet (recon1 sup a ts).db id = dbGet a.db id
      ∧ putsFor id (recon1 sup a ts).ops = putsFor id a.ops := by
  induction ts with
  | nil => exact fun a _ => ⟨rfl, rfl, rfl⟩
  | cons p ts ih =>
    intro a h
    obtain ⟨i, u⟩ := p
    simp only [List.map_cons, List.mem_cons, not_or] at h
    obtain ⟨hne, hrest⟩ := h
    have hi : i ≠ id := fun hh => hne hh.symm
    rw [recon1_cons]
    by_cases hsu : sup u = true
    · cases hd : dbGet a.db i with
      | none =>
        simp only [hsu, if_true]
        obtain ⟨h1, h2, h3⟩ := ih _ hrest
        refine ⟨?_, ?_, ?_⟩
        · rw [h1]; exact cacheFind_cacheSet_ne _ _ _ _ hi
        · exact h2
        · rw [h3, putsFor_append, putsFor_put_ne id i _ hi, List.append_nil]
      | some d0 =>
        by_cases hq : urlNeq (objGet d0 "url") u = true
        · simp only [hsu, if_true, hq]
          obtain ⟨h1, h2, h3⟩ := ih _ hrest
          refine ⟨?_, ?_, ?_⟩
          · rw [h1]; exact cacheFind_cacheSet_ne _ _ _ _ hi
          · rw [h2]; exact dbGet_dbSet_ne _ _ _ _ hi
          · rw [h3, putsFor_append, putsFor_put_ne id i _ hi, List.append_nil]
        · have hq2 : urlNeq (objGet d0 "url") u = false := by simpa using hq
          simp only [hsu, if_true, hq2, Bool.false_eq_true, if_false]
          obtain ⟨h1, h2, h3⟩ := ih _ hrest
          refine ⟨?_, h2, h3⟩
          rw [h1]; exact cacheFind_cacheSet_ne _ _ _ _ hi
    · have hsu2 : sup u = false := by simpa using hsu
      simp only [hsu2, Bool.false_eq_true, if_false]
      exact ih a hrest

theorem recon1_mem (sup : String → Bool) (ts : List (Int × String)) (id : Int) (url : String) :
    ∀ a : ReconAcc, (id, url) ∈ ts → (ts.map Prod.fst).Nodup → sup url = true →
      (dbGet a.db id = none →
        cacheFind (recon1 sup a ts).cache id = some [("url", JVal.vStr url)]
        ∧ putsFor id (recon1 sup a ts).ops
            = putsFor id a.ops ++ [[("url", JVal.vStr url)]])
      ∧ (∀ d0, dbGet a.db id = some d0 → urlNeq (objGet d0 "url") url = true →
        cacheFind (recon1 sup a ts).cache id = some (objSet d0 "url" (.vStr url))
        ∧ putsFor id (recon1 sup a ts).ops
            = putsFor id a.ops ++ [objSet d0 "url" (.vStr url)])
      ∧ (∀ d0, dbGet a.db id = some d0 → urlNeq (objGet d0 "url") url = false →
        cacheFind (recon1 sup a ts).cache id = some d0
        ∧ putsFor id (recon1 sup a ts).ops = putsFor id a.ops) := by
  induction ts with
  | nil => intro a hm; exact absurd hm (List.not_mem_nil _)
  | cons p ts ih =>
    intro a hm hnd hs
    obtain ⟨i, u⟩ := p
    rw [List.map_cons] at hnd
    have hnd2 := List.nodup_cons.mp hnd
    rcases List.mem_cons.mp hm with heq | htail
    · obtain ⟨rfl, rfl⟩ := Prod.mk.inj heq
      have hnotin : id ∉ ts.map Prod.fst := hnd2.1
      rw [recon1_cons]
      cases hd : dbGet a.db id with
      | none =>
        simp only [hs, if_true]
        obtain ⟨h1, _, h3⟩ := recon1_untouched sup ts id _ hnotin
        refine ⟨fun _ => ⟨?_, ?_⟩,
                fun d0 hd0 _ => Option.noConfusion hd0,
                fun d0 hd0 _ => Option.noConfusion hd0⟩
        · rw [h1]; exact cacheFind_cacheSet_self _ _ _
        · rw [h3, putsFor_append, putsFor_put_self]
      | some d0' =>
        by_cases hq : urlNeq (objGet d0' "url") url = true
        · simp only [hs, if_true, hq]
          obtain ⟨h1, _, h3⟩ := recon1_untouched sup ts id _ hnotin
          refine ⟨fun hd0 => Option.noConfusion hd0,
                  fun d0 hd0 hq0 => ?_, fun d0 hd0 hq0 => ?_⟩
          · obtain rfl : d0' = d0 := Option.some.inj hd0
            exact ⟨by rw [h1]; exact cacheFind_cacheSet_self _ _ _,
                   by rw [h3, putsFor_append, putsFor_put_self]⟩
          · obtain rfl : d0' = d0 := Option.some.inj hd0
            rw [hq] at hq0; exact Bool.noConfusion hq0
        · have hq2 : urlNeq (objGet d0' "url") url = false := by simpa using hq
          simp only [hs, if_true, hq2, Bool.false_eq_true, if_false]
          obtain ⟨h1, _, h3⟩ := recon1_untouched sup ts id _ hnotin
          refine ⟨fun hd0 => Option.noConfusion hd0,
                  fun d0 hd0 hq0 => ?_, fun d0 hd0 hq0 => ?_⟩
          · obtain rfl : d0' = d0 := Option.some.inj hd0
            rw [hq2] at hq0; exact Bool.noConfusion hq0
          · obtain rfl : d0' = d0 := Option.some.inj hd0
            exact ⟨by rw [h1]; exact cacheFind_cacheSet_self _ _ _, by rw [h3]⟩
    · have hi : i ≠ id := by
        have hin : id ∈ ts.map Prod.fst := List.mem_map.mpr ⟨(id, url), htail, rfl⟩
        intro hh; rw [hh] at hnd2; exact hnd2.1 hin
      have hnd' : (ts.map Prod.fst).Nodup := hnd2.2
      rw [recon1_cons]
      by_cases hsu : sup u = true
      · cases hd : dbGet a.db i with
        | none =>
          simp only [hsu, if_true]
          obtain ⟨A, B, C⟩ := ih ⟨a.db, cacheSet a.cache i [("url", JVal.vStr u)],
              a.ops ++ [StoreOp.put (JKey.kNum i) [("url", JVal.vStr u)]]⟩ htail hnd' hs
          have hp : putsFor id (a.ops ++ [StoreOp.put (JKey.kNum i) [("url", JVal.vStr u)]])
              = putsFor id a.ops := by
            rw [putsFor_append, putsFor_put_ne id i _ hi, List.append_nil]
          refine ⟨fun hd0 => ?_, fun d0 hd0 hq0 => ?_, fun d0 hd0 hq0 => ?_⟩
          · obtain ⟨x, y⟩ := A hd0; exact ⟨x, by rw [y, hp]⟩
          · obtain ⟨x, y⟩ := B d0 hd0 hq0; exact ⟨x, by rw [y, hp]⟩
          · obtain ⟨x, y⟩ := C d0 hd0 hq0; exact ⟨x, by rw [y, hp]⟩
        | some d0' =>
          by_cases hq : urlNeq (objGet d0' "url") u = true
          · simp only [hsu, if_true, hq]
            obtain ⟨A, B, C⟩ := ih ⟨dbSet a.db i (objSet d0' "url" (.vStr u)),
                cacheSet a.cache i (objSet d0' "url" (.vStr u)),
                a.ops ++ [StoreOp.put (JKey.kNum i) (objSet d0' "url" (.vStr u))]⟩
                htail hnd' hs
            have hdb : dbGet (dbSet a.db i (objSet d0' "url" (.vStr u))) id = dbGet a.db id :=
              dbGet_dbSet_ne _ _ _ _ hi
            have hp : putsFor id
                (a.ops ++ [StoreOp.put (JKey.kNum i) (objSet d0' "url" (.vStr u))])
                = putsFor id a.ops := by
              rw [putsFor_append, putsFor_put_ne id i _ hi, List.append_nil]
            refine ⟨fun hd0 => ?_, fun d0 hd0 hq0 => ?_, fun d0 hd0 hq0 => ?_⟩
            · obtain ⟨x, y⟩ := A (hdb.trans hd0); exact ⟨x, by rw [y, hp]⟩
            · obtain ⟨x, y⟩ := B d0 (hdb.trans hd0) hq0; exact ⟨x, by rw [y, hp]⟩
            · obtain ⟨x, y⟩ := C d0 (hdb.trans hd0) hq0; exact ⟨x, by rw [y, hp]⟩
          · have hq2 : urlNeq (objGet d0' "url") u = false := by simpa using hq
            simp only [hsu, if_true, hq2, Bool.false_eq_true, if_false]
            exact ih ⟨a.db, cacheSet a.cache i d0', a.ops⟩ htail hnd' hs
      · have hsu2 : sup u = false := by simpa using hsu
        simp only [hsu2, Bool.false_eq_true, if_false]
        exact ih a htail hnd' hs

theorem recon1_unsupported (sup : String → Bool) (ts : List (Int × String))
    (id : Int) (url : String) :
    ∀ a : ReconAcc, (id, url) ∈ ts → (ts.map Prod.fst).Nodup → sup url = false →
      cacheFind (recon1 sup a ts).cache id = cacheFind a.cache id
      ∧ putsFor id (recon1 sup a ts).ops = putsFor id a.ops := by
  induction ts with
  | nil => intro a hm; exact absurd hm (List.not_mem_nil _)
  | cons p ts ih =>
    intro a hm hnd hs
    obtain ⟨i, u⟩ := p
    rw [List.map_cons] at hnd
    have hnd2 := List.nodup_cons.mp hnd
    rcases List.mem_cons.mp hm with heq | htail
    · obtain ⟨rfl, rfl⟩ := Prod.mk.inj heq
      rw [recon1_cons]
      simp only [hs, Bool.false_eq_true, if_false]
      obtain ⟨h1, _, h3⟩ := recon1_untouched sup ts id a hnd2.1
      exact ⟨h1, h3⟩
    · have hi : i ≠ id := by
        have hin : id ∈ ts.map Prod.fst := List.mem_map.mpr ⟨(id, url), htail, rfl⟩
        intro hh; rw [hh] at hnd2; exact hnd2.1 hin
      have hnd' : (ts.map Prod.fst).Nodup := hnd2.2
      rw [recon1_cons]
      by_cases hsu : sup u = true
      · cases hd : dbGet a.db i with
        | none =>
          simp only [hsu, if_true]
          obtain ⟨h1, h3⟩ := ih ⟨a.db, cacheSet a.cache i [("url", JVal.vStr u)],
              a.ops ++ [StoreOp.put (JKey.kNum i) [("url", JVal.vStr u)]]⟩ htail hnd' hs
          refine ⟨?_, ?_⟩
          · rw [h1]; exact cacheFind_cacheSet_ne _ _ _ _ hi
          · rw [h3, putsFor_append, putsFor_put_ne id i _ hi, List.append_nil]
        | some d0' =>
          by_cases hq : urlNeq (objGet d0' "url") u = true
          · simp only [hsu, if_true, hq]
            obtain ⟨h1, h3⟩ := ih ⟨dbSet a.db i (objSet d0' "url" (.vStr u)),
                cacheSet a.cache i (objSet d0' "url" (.vStr u)),
                a.ops ++ [StoreOp.put (JKey.kNum i) (objSet d0' "url" (.vStr u))]⟩
                htail hnd' hs
            refine ⟨?_, ?_⟩
            · rw [h1]; exact cacheFind_cacheSet_ne _ _ _ _ hi
            · rw [h3, putsFor_append, putsFor_put_ne id i _ hi, List.append_nil]
          · have hq2 : urlNeq (objGet d0' "url") u = false := by simpa using hq
            simp only [hsu, if_true, hq2, Bool.false_eq_true, if_false]
            obtain ⟨h1, h3⟩ := ih ⟨a.db, cacheSet a.cache i d0', a.ops⟩ htail hnd' hs
            exact ⟨by rw [h1]; exact cacheFind_cacheSet_ne _ _ _ _ hi, h3⟩
      · have hsu2 : sup u = false := by simpa using hsu
        simp only [hsu2, Bool.false_eq_true, if_false]
        exact ih a htail hnd' hs

theorem recon1_db_keys (sup : String → Bool) (ts : List (Int × String)) :
    ∀ a : ReconAcc, (recon1 sup a ts).db.map Prod.fst = a.db.map Prod.fst := by
  induction ts with
  | nil => exact fun a => rfl
  | cons p ts ih =>
    intro a
    obtain ⟨i, u⟩ := p
    rw [recon1_cons]
    by_cases hsu : sup u = true
    · cases hd : dbGet a.db i with
      | none => simp only [hsu, if_true]; exact ih _
      | some d0' =>
        by_cases hq : urlNeq (objGet d0' "url") u = true
        · simp only [hsu, if_true, hq]
          rw [ih]
          exact dbSet_keys _ _ _
        · have hq2 : urlNeq (objGet d0' "url") u = false := by simpa using hq
          simp only [hsu, if_true, hq2, Bool.false_eq_true, if_false]
          exact ih _
    · have hsu2 : sup u = false := by simpa using hsu
      simp only [hsu2, Bool.false_eq_true, if_false]
      exact ih a

theorem recon1_no_dels (sup : String → Bool) (ts : List (Int × String)) (k : JKey) :
    ∀ a : ReconAcc, delCount (recon1 sup a ts).ops k = delCount a.ops k := by
  induction ts with
  | nil => exact fun a => rfl
  | cons p ts ih =>
    intro a
    obtain ⟨i, u⟩ := p
    rw [recon1_cons]
    by_cases hsu : sup u = true
    · cases hd : dbGet a.db i with
      | none =>
        simp only [hsu, if_true]
        rw [ih, delCount_append]
        simp [delCount]
      | some d0' =>
        by_cases hq : urlNeq (objGet d0' "url") u = true
        · simp only [hsu, if_true, hq]
          rw [ih, delCount_append]
          simp [delCount]
        · have hq2 : urlNeq (objGet d0' "url") u = false := by simpa using hq
          simp only [hsu, if_true, hq2, Bool.false_eq_true, if_false]
          exact ih _
    · have hsu2 : sup u = false := by simpa using hsu
      simp only [hsu2, Bool.false_eq_true, if_false]
      exact ih a

theorem recon1_puts_src (sup : String → Bool) (ts : List (Int × String)) (op : StoreOp) :
    ∀ a : ReconAcc, op ∈ (recon1 sup a ts).ops →
      op ∈ a.ops ∨ ∃ i u d, op = StoreOp.put (JKey.kNum i) d ∧ (i, u) ∈ ts ∧ sup u = true := by
  induction ts with
  | nil => exact fun a h => Or.inl h
  | cons p ts ih =>
    intro a h
    obtain ⟨i, u⟩ := p
    rw [recon1_cons] at h
    by_cases hsu : sup u = true
    · cases hd : dbGet a.db i with
      | none =>
        rw [hd] at h
        simp only [hsu, if_true] at h
        rcases ih _ h with hin | ⟨i', u', d', heq, hmem, hsup⟩
        · rcases List.mem_append.mp hin with h1 | h2
          · exact Or.inl h1
          · refine Or.inr ⟨i, u, [("url", JVal.vStr u)], ?_, List.mem_cons_self _ _, hsu⟩
            simpa using h2
        · exact Or.inr ⟨i', u', d', heq, List.mem_cons_of_mem _ hmem, hsup⟩
      | some d0' =>
        rw [hd] at h
        by_cases hq : urlNeq (objGet d0' "url") u = true
        · simp only [hsu, if_true, hq] at h
          rcases ih _ h with hin | ⟨i', u', d', heq, hmem, hsup⟩
          · rcases List.mem_append.mp hin with h1 | h2
            · exact Or.inl h1
            · refine Or.inr ⟨i, u, objSet d0' "url" (.vStr u), ?_, List.mem_cons_self _ _, hsu⟩
              simpa using h2
          · exact Or.inr ⟨i', u', d', heq, List.mem_cons_of_mem _ hmem, hsup⟩
        · have hq2 : urlNeq (objGet d0' "url") u = false := by simpa using hq
          simp only [hsu, if_true, hq2, Bool.false_eq_true, if_false] at h
          rcases ih _ h with hin | ⟨i', u', d', heq, hmem, hsup⟩
          · exact Or.inl hin
          · exact Or.inr ⟨i', u', d', heq, List.mem_cons_of_mem _ hmem, hsup⟩
    · have hsu2 : sup u = false := by simpa using hsu
      simp only [hsu2, Bool.false_eq_true, if_false] at h
      rcases ih _ h with hin | ⟨i', u', d', heq, hmem, hsup⟩
      · exact Or.inl hin
      · exact Or.inr ⟨i', u', d', heq, List.mem_cons_of_mem _ hmem, hsup⟩

/-! ### Lemmas about the reconciler's garbage-collection pass -/

theorem recon2_eq (c : Cache) (ks : List JKey) :
    ∀ ops, recon2 c ops ks
      = ops ++ (ks.filter (fun k => keyNonNeg k && !cacheHasKey c k)).map StoreOp.del := by
  induction ks with
  | nil => intro ops; simp [recon2]
  | cons k t ih =>
    intro ops
    by_cases hc : (keyNonNeg k && !cacheHasKey c k) = true
    · simp only [recon2, hc, if_true, List.filter_cons, List.map_cons]
      rw [ih]
      simp [List.append_assoc]
    · have hc2 : (keyNonNeg k && !cacheHasKey c k) = false := by simpa using hc
      simp only [recon2, hc2, Bool.false_eq_true, if_false, List.filter_cons]
      rw [ih]

theorem delCount_map_del_zero (k : JKey) (ks : List JKey) (h : k ∉ ks) :
    delCount (ks.map StoreOp.del) k = 0 := by
  induction ks with
  | nil => rfl
  | cons a t ih =>
    simp only [List.mem_cons, not_or] at h
    have ha : a ≠ k := fun hh => h.1 hh.symm
    simp [delCount, ha, ih h.2]

theorem delCount_filter_nodup (p : JKey → Bool) (ks : List JKey) (h : ks.Nodup)
    (k : JKey) (hk : k ∈ ks) :
    delCount ((ks.filter p).map StoreOp.del) k = if p k then 1 else 0 := by
  induction ks with
  | nil => exact absurd hk (List.not_mem_nil _)
  | cons a t ih =>
    obtain ⟨hnotin, hnd⟩ := List.nodup_cons.mp h
    rcases List.mem_cons.mp hk with rfl | htail
    · by_cases hp : p k = true
      · simp [List.filter_cons, hp, delCount,
          delCount_map_del_zero k _ (fun hc => hnotin (List.mem_of_mem_filter hc))]
      · have hp2 : p k = false := by simpa using hp
        simp [List.filter_cons, hp2,
          delCount_map_del_zero k _ (fun hc => hnotin (List.mem_of_mem_filter hc))]
    · have hak : a ≠ k := fun hh => hnotin (hh ▸ htail)
      by_cases hp : p a = true
      · simp [List.filter_cons, hp, delCount, hak, ih hnd htail]
      · have hp2 : p a = false := by simpa using hp
        simp [List.filter_cons, hp2, ih hnd htail]

theorem delCount_map_del_mem (p : JKey → Bool) (ks : List JKey) (k : JKey)
    (h : delCount ((ks.filter p).map StoreOp.del) k ≠ 0) : k ∈ ks := by
  induction ks with
  | nil => exact absurd rfl h
  | cons a t ih =>
    by_cases hp : p a = true
    · rw [List.filter_cons, if_pos (by simp [hp])] at h
      by_cases hak : a = k
      · exact hak ▸ List.mem_cons_self _ _
      · rw [List.map_cons] at h
        simp only [delCount, hak, if_false] at h
        exact List.mem_cons_of_mem _ (ih (by simpa using h))
    · have hp2 : p a = false := by simpa using hp
      rw [List.filter_cons, if_neg (by simp [hp2])] at h
      exact List.mem_cons_of_mem _ (ih h)

/-! ### Claim C1 — the reconciler's live-tab pass -/

/-- C1: for every live tab (with distinct tab ids, as the browser guarantees):
if its url fails the support predicate it is not inserted into the cache;
if it is supported and no persisted record exists, a fresh record `{url}` is
inserted and it is the only record persisted for that id; if a persisted
record exists with a different (or missing/non-string) url, the record is
reused with its url refreshed, inserted, and persisted; and if the persisted
record already carries the live url it is reused and inserted verbatim with
no persist issued for that id. -/
theorem reconciler_live_tab_pass (sup : String → Bool) (db : Db)
    (tabs : List (Int × String)) (hnd : (tabs.map Prod.fst).Nodup)
    (id : Int) (url : String) (hmem : (id, url) ∈ tabs) :
    (sup url = false → cacheFind (reconcile sup db tabs).1 id = none)
    ∧ (sup url = true → dbGet db id = none →
        cacheFind (reconcile sup db tabs).1 id = some [("url", JVal.vStr url)]
        ∧ putsFor id (reconcile sup db tabs).2 = [[("url", JVal.vStr url)]])
    ∧ (sup url = true → ∀ d0, dbGet db id = some d0 →
        urlNeq (objGet d0 "url") url = true →
        cacheFind (reconcile sup db tabs).1 id = some (objSet d0 "url" (.vStr url))
        ∧ putsFor id (reconcile sup db tabs).2 = [objSet d0 "url" (.vStr url)])
    ∧ (sup url = true → ∀ d0, dbGet db id = some d0 →
        urlNeq (objGet d0 "url") url = false →
        cacheFind (reconcile sup db tabs).1 id = some d0
        ∧ putsFor id (reconcile sup db tabs).2 = []) := by
  have hre1 : (reconcile sup db tabs).1 = (recon1 sup ⟨db, [], []⟩ tabs).cache := rfl
  have hputs : putsFor id (reconcile sup db tabs).2
      = putsFor id (recon1 sup ⟨db, [], []⟩ tabs).ops := by
    show putsFor id (recon2 _ _ _) = _
    rw [recon2_eq, putsFor_append, putsFor_map_del, List.append_nil]
  refine ⟨fun hs => ?_, fun hs hd => ?_, fun hs d0 hd hq => ?_, fun hs d0 hd hq => ?_⟩
  · rw [hre1]
    obtain ⟨h1, _⟩ := recon1_unsupported sup tabs id url ⟨db, [], []⟩ hmem hnd hs
    exact h1
  · obtain ⟨A, _, _⟩ := recon1_mem sup tabs id url ⟨db, [], []⟩ hmem hnd hs
    obtain ⟨x, y⟩ := A hd
    exact ⟨by rw [hre1]; exact x, by rw [hputs, y]; rfl⟩
  · obtain ⟨_, B, _⟩ := recon1_mem sup tabs id url ⟨db, [], []⟩ hmem hnd hs
    obtain ⟨x, y⟩ := B d0 hd hq
    exact ⟨by rw [hre1]; exact x, by rw [hputs, y]; rfl⟩
  · obtain ⟨_, _, C⟩ := recon1_mem sup tabs id url ⟨db, [], []⟩ hmem hnd hs
    obtain ⟨x, y⟩ := C d0 hd hq
    exact ⟨by rw [hre1]; exact x, by rw [hputs, y]; rfl⟩

/-- C1 witness: the snapshot of the spec's reconciliation example — persisted
record for tab 5 has url `http://old`, live url is `http://new`: the record
is refreshed, inserted, and persisted exactly once. -/
theorem reconciler_live_tab_pass_witness :
    cacheFind (reconcile (fun _ => true)
        [(JKey.kNum 5, [("url", JVal.vStr "http://old")]),
         (JKey.kNum 6, [("url", JVal.vStr "http://x")]),
         (JKey.kStr "cfg", [])]
        [(5, "http://new")]).1 5 = some [("url", JVal.vStr "http://new")]
    ∧ putsFor 5 (reconcile (fun _ => true)
        [(JKey.kNum 5, [("url", JVal.vStr "http://old")]),
         (JKey.kNum 6, [("url", JVal.vStr "http://x")]),
         (JKey.kStr "cfg", [])]
        [(5, "http://new")]).2 = [[("url", JVal.vStr "http://new")]] := by
  have h := (reconciler_live_tab_pass (fun _ => true)
      [(JKey.kNum 5, [("url", JVal.vStr "http://old")]),
       (JKey.kNum 6, [("url", JVal.vStr "http://x")]),
       (JKey.kStr "cfg", [])]
      [(5, "http://new")] (by decide) 5 "http://new"
      (List.mem_cons_self _ _)).2.2.1 rfl
      [("url", JVal.vStr "http://old")] rfl (by decide)
  exact ⟨h.1, h.2⟩

/-! ### Claim C2 — the reconciler's garbage-collection pass -/

/-- C2 counterexample: the persisted key `"3.5"` does not parse as a
non-negative integer tab id — it is a non-integer numeral — so the claim
requires it to be left untouched; but `+"3.5"` is `3.5 >= 0`, so the code
issues a persistent delete for it (here with no live tabs at all). -/
theorem reconciler_gc_counterexample :
    keyNonNeg (JKey.kStr "3.5") = true
    ∧ (reconcile (fun _ => false) [(JKey.kStr "3.5", [])] []).2
        = [StoreOp.del (JKey.kStr "3.5")] :=
  ⟨rfl, rfl⟩

/-- C2 amended: for every key of the persisted mapping (whose keys are
distinct, as a map guarantees), exactly one delete is issued when the key's
JS numeric coercion is a number (or `Infinity`) `>= 0` — which also covers
non-integer numerals such as `"3.5"`, the empty string, and whitespace
strings, all coercing to numbers — and the key, compared by store-key
identity, is not a key of the rebuilt cache (so a *string* key of numeric
text never matches a cached numeric tab id); no delete is issued otherwise;
deletes are only ever issued for persisted keys, and the only writes issued
by reconciliation are for the numeric ids of supported live tabs. -/
theorem reconciler_gc_amended (sup : String → Bool) (db : Db)
    (tabs : List (Int × String)) (hnd : (db.map Prod.fst).Nodup) :
    (∀ k, k ∈ db.map Prod.fst →
      delCount (reconcile sup db tabs).2 k
        = if keyNonNeg k && !cacheHasKey (reconcile sup db tabs).1 k then 1 else 0)
    ∧ (∀ k, delCount (reconcile sup db tabs).2 k ≠ 0 → k ∈ db.map Prod.fst)
    ∧ (∀ k o, StoreOp.put k o ∈ (reconcile sup db tabs).2 →
        ∃ i u, k = JKey.kNum i ∧ (i, u) ∈ tabs ∧ sup u = true) := by
  have hkeys : (recon1 sup ⟨db, [], []⟩ tabs).db.map Prod.fst = db.map Prod.fst :=
    recon1_db_keys sup tabs _
  have hre1 : (reconcile sup db tabs).1 = (recon1 sup ⟨db, [], []⟩ tabs).cache := rfl
  have hre2 : (reconcile sup db tabs).2
      = recon2 (recon1 sup ⟨db, [], []⟩ tabs).cache (recon1 sup ⟨db, [], []⟩ tabs).ops
          ((recon1 sup ⟨db, [], []⟩ tabs).db.map Prod.fst) := rfl
  refine ⟨fun k hk => ?_, fun k hdc => ?_, fun k o hput => ?_⟩
  · rw [hre2, recon2_eq, delCount_append, recon1_no_dels sup tabs k ⟨db, [], []⟩, hkeys, hre1]
    rw [delCount_filter_nodup _ (db.map Prod.fst) hnd k hk]
    simp [delCount]
  · rw [hre2, recon2_eq, delCount_append,
       recon1_no_dels sup tabs k ⟨db, [], []⟩, hkeys] at hdc
    have h2 : delCount (((db.map Prod.fst).filter
        (fun k => keyNonNeg k && !cacheHasKey (recon1 sup ⟨db, [], []⟩ tabs).cache k)).map
        StoreOp.del) k ≠ 0 := by
      simpa [delCount] using hdc
    exact delCount_map_del_mem _ _ _ h2
  · rw [hre2, recon2_eq] at hput
    rcases List.mem_append.mp hput with h1 | h2
    · rcases recon1_puts_src sup tabs _ _ h1 with hin | ⟨i, u, d, heq, hmem2, hsup⟩
      · exact absurd hin (List.not_mem_nil _)
      · exact ⟨i, u, (StoreOp.put.inj heq).1, hmem2, hsup⟩
    · exfalso
      rcases List.mem_map.mp h2 with ⟨k', _, hkk⟩
      exact StoreOp.noConfusion hkk

/-- C2 witness: the spec's reconciliation example — tab 6 is gone from the
live list, so exactly one delete is issued for the numeric key `6`. -/
theorem reconciler_gc_amended_witness :
    delCount (reconcile (fun _ => true)
        [(JKey.kNum 5, [("url", JVal.vStr "http://old")]),
         (JKey.kNum 6, [("url", JVal.vStr "http://x")]),
         (JKey.kStr "cfg", [])]
        [(5, "http://new")]).2 (JKey.kNum 6) = 1 := by
  have h := (reconciler_gc_amended (fun _ => true)
      [(JKey.kNum 5, [("url", JVal.vStr "http://old")]),
       (JKey.kNum 6, [("url", JVal.vStr "http://x")]),
       (JKey.kStr "cfg", [])]
      [(5, "http://new")] (by decide)).1 (JKey.kNum 6) (by decide)
  rw [h]
  rfl
